import Mathlib

/-!
Verification of the oscar2ics schedule converter.

We give a shallow embedding of the two App.tsx variants of the repository
(the classifier-based parser and the older positional parser) and prove
properties of the embedded functions.

Modelling conventions:
* a luxon DateTime in the fixed zone America/New_York is modelled by its
  civil (wall-clock) components: a day number (days since 1970-01-01) and
  the millisecond of the day; calendar-day addition adds to the day
  number, and millisecond arithmetic converts through total milliseconds;
* an invalid luxon DateTime is modelled as `none : Option DateTime`;
* a JavaScript value that may be `undefined` is modelled with `Option`;
  fields holding a possibly-invalid DateTime are `Option (Option DateTime)`
  (outer layer: the property is assigned at all; inner layer: validity),
  because an invalid DateTime object is still truthy in JavaScript;
* JavaScript regular-expression tests are modelled by executable character
  matchers that search every start position, exactly like an unanchored
  regex with no backtracking-sensitive constructs;
* string trimming uses the ASCII whitespace set, which covers every string
  appearing in the schedule PDFs.
-/

/-! ## JavaScript string primitives -/

/-- The ASCII part of the JavaScript whitespace class. -/
def isJsWs (c : Char) : Bool :=
  c = ' ' || c = '\t' || c = '\n' || c = '\r' || c = '\x0b' || c = '\x0c'

/-- Trim of the ASCII whitespace characters from both ends, implemented
by structural recursion so that proofs can evaluate it. -/
def jsTrim (s : String) : String :=
  String.mk (((s.toList.dropWhile isJsWs).reverse.dropWhile isJsWs).reverse)

/-- Split a character list on a separator character; always returns at
least one group. -/
def splitChars (sep : Char) : List Char → List (List Char)
  | [] => [[]]
  | c :: cs =>
    if c = sep then [] :: splitChars sep cs
    else
      match splitChars sep cs with
      | g :: gs => (c :: g) :: gs
      | [] => [[c]]

/-- JavaScript `s.split(sep)` for a one-character separator. -/
def jsSplit (s : String) (sep : Char) : List String :=
  (splitChars sep s.toList).map String.mk

/-- Join a list of strings with a separator, the behavior of the standard
join. -/
def joinSep (sep : String) : List String → String
  | [] => ""
  | a :: as => as.foldl (fun acc s => acc ++ sep ++ s) a

/-- Membership of a character in a string. -/
def jsContains (s : String) (c : Char) : Bool :=
  s.toList.any (fun d => d = c)

/-- JavaScript `s.split(sep, limit)`: the split result truncated. -/
def jsSplitLimit (s : String) (sep : Char) (limit : Nat) : List String :=
  (jsSplit s sep).take limit

/-- JavaScript `s.replace A sB` with pattern whitespace-plus and empty
replacement: removes every whitespace character. -/
def stripWs (s : String) : String :=
  String.mk (s.toList.filter (fun c => !isJsWs c))

/-- True when a string is falsy in JavaScript, i.e. empty. -/
def jsFalsyStr (s : String) : Bool := s = ""

/-- Truthiness test for an optional string: `undefined` and the empty
string are falsy. -/
def jsFalsyOptStr : Option String → Bool
  | none => true
  | some s => jsFalsyStr s

/-! ## Character matchers for the regular expressions of the source -/

/-- Drop leading whitespace characters, the effect of a greedy star of the
whitespace class followed by a non-whitespace pattern. -/
def munchWs : List Char → List Char :=
  List.dropWhile isJsWs

/-- Consume exactly `n` decimal digits. -/
def munchDigits : Nat → List Char → Option (Nat × List Char)
  | 0, cs => some (0, cs)
  | _ + 1, [] => none
  | n + 1, c :: cs =>
    if c.isDigit then
      match munchDigits n cs with
      | some (v, rest) => some ((c.toNat - 48) * 10 ^ n + v, rest)
      | none => none
    else none

/-- Consume one expected character. -/
def munchChar (c : Char) : List Char → Option (List Char)
  | [] => none
  | d :: cs => if d = c then some cs else none

/-- Consume a date of shape two digits, slash, two digits, slash, four
digits, returning the fields and the rest. -/
def munchDate : List Char → Option (Nat × Nat × Nat × List Char) :=
  fun cs =>
  match munchDigits 2 cs with
  | none => none
  | some (mo, cs) =>
    match munchChar '/' cs with
    | none => none
    | some cs =>
      match munchDigits 2 cs with
      | none => none
      | some (da, cs) =>
        match munchChar '/' cs with
        | none => none
        | some cs =>
          match munchDigits 4 cs with
          | none => none
          | some (yr, cs) => some (yr, mo, da, cs)

/-- Does the predicate match at some start position of the list? This is
an unanchored regex search. -/
def anySuffix (p : List Char → Bool) : List Char → Bool
  | [] => p []
  | c :: cs => p (c :: cs) || anySuffix p cs

/-- Matcher at one position for the date-range regex of the source: two
slash-separated dates around a dash with optional whitespace. -/
def dateRangeAt (cs : List Char) : Bool :=
  match munchDate cs with
  | none => false
  | some (_, _, _, rest) =>
    match munchChar '-' (munchWs rest) with
    | none => false
    | some rest2 => (munchDate (munchWs rest2)).isSome

/-- Test of the date-range regex from the source. -/
def testDateRange (s : String) : Bool :=
  anySuffix dateRangeAt s.toList

/-- Matcher at one position for the time-row regex: a colon, optional
whitespace, two digits, optional whitespace, A or P, then M,
case-insensitively. -/
def timeRowAt (cs : List Char) : Bool :=
  match munchChar ':' cs with
  | none => false
  | some cs =>
    match munchDigits 2 (munchWs cs) with
    | none => false
    | some (_, rest) =>
      match munchWs rest with
      | a :: m :: _ =>
        (a = 'A' || a = 'a' || a = 'P' || a = 'p') && (m = 'M' || m = 'm')
      | _ => false

/-- Matcher at one position for the room-number heuristic regex: a comma,
optional whitespace, then at least one digit. -/
def commaDigitsAt (cs : List Char) : Bool :=
  match munchChar ',' cs with
  | none => false
  | some cs =>
    match munchWs cs with
    | d :: _ => d.isDigit
    | [] => false

/-- Test of the room-number heuristic regex from the source. -/
def hasCommaDigits (s : String) : Bool :=
  anySuffix commaDigitsAt s.toList

/-! ## Civil calendar arithmetic -/

/-- Day count of a civil date from 1970-01-01, the standard
days-from-civil computation, using floor division. -/
def ymdToDays (y m d : Int) : Int :=
  let y2 : Int := if m ≤ 2 then y - 1 else y
  let era : Int := y2.fdiv 400
  let yoe : Int := y2 - era * 400
  let mp : Int := if m > 2 then m - 3 else m + 9
  let doy : Int := (153 * mp + 2).fdiv 5 + d - 1
  let doe : Int := yoe * 365 + yoe.fdiv 4 - yoe.fdiv 100 + doy
  era * 146097 + doe - 719468

/-- Civil date of a day count, the standard civil-from-days computation. -/
def daysToYmd (z : Int) : Int × Int × Int :=
  let z2 : Int := z + 719468
  let era : Int := z2.fdiv 146097
  let doe : Int := z2 - era * 146097
  let yoe : Int := (doe - doe.fdiv 1460 + doe.fdiv 36524 - doe.fdiv 146096).fdiv 365
  let y : Int := yoe + era * 400
  let doy : Int := doe - (365 * yoe + yoe.fdiv 4 - yoe.fdiv 100)
  let mp : Int := (5 * doy + 2).fdiv 153
  let d : Int := doy - (153 * mp + 2).fdiv 5 + 1
  let m : Int := if mp < 10 then mp + 3 else mp - 9
  (if m ≤ 2 then y + 1 else y, m, d)

/-- Wall-clock instant in the fixed civil zone of the program: a day
number and the millisecond of that day. -/
structure DateTime where
  days : Int
  ms : Nat
deriving DecidableEq, Repr

/-- Milliseconds in one day. -/
def msPerDay : Int := 86400000

/-- Rebuild a DateTime from a total-millisecond count. -/
def ofTotalMs (t : Int) : DateTime :=
  ⟨t / msPerDay, (t % msPerDay).toNat⟩

/-- Total-millisecond count of a DateTime. -/
def totalMs (dt : DateTime) : Int :=
  dt.days * msPerDay + dt.ms

/-- Luxon calendar-day addition: the day number moves, the time of day is
kept. -/
def plusDays (dt : DateTime) (n : Int) : DateTime :=
  ⟨dt.days + n, dt.ms⟩

/-- Luxon millisecond subtraction. -/
def minusMillis (dt : DateTime) (n : Int) : DateTime :=
  ofTotalMs (totalMs dt - n)

/-- Luxon millisecond addition. -/
def plusMillis (dt : DateTime) (n : Int) : DateTime :=
  ofTotalMs (totalMs dt + n)

/-- ISO weekday of a DateTime, Monday = 1 through Sunday = 7; day 0
(1970-01-01) is a Thursday. -/
def weekday (dt : DateTime) : Nat :=
  ((dt.days + 3) % 7).toNat + 1

/-- Day count of the start of a fictitious day in a year: number of days
in each month, accounting for leap years. -/
def daysInMonth (y m : Int) : Int :=
  if m = 2 then
    if y % 4 = 0 ∧ (y % 100 ≠ 0 ∨ y % 400 = 0) then 29 else 28
  else if m = 4 ∨ m = 6 ∨ m = 9 ∨ m = 11 then 30
  else 31

/-! ## Parsing of the two luxon formats used by the source -/

/-- Parse of the date section of the format string: month, day, year with
the component counts of the format, validated like luxon fromObject. -/
def parseDateChars (cs : List Char) : Option (DateTime × List Char) :=
  match munchDate cs with
  | none => none
  | some (yr, mo, da, rest) =>
    if 1 ≤ mo && mo ≤ 12 && 1 ≤ da && (da : Int) ≤ daysInMonth yr mo then
      some (⟨ymdToDays yr mo da, 0⟩, rest)
    else none

/-- Luxon fromFormat with format string for a bare date, zone
America/New_York: the whole string must be consumed. Returns the civil
midnight of the date. -/
def parseDateNY (s : String) : Option DateTime :=
  match parseDateChars s.toList with
  | some (dt, []) => some dt
  | _ => none

/-- Parse of the clock section: two-digit hour, colon, two-digit minute,
meridiem AM or PM, with 12-hour arithmetic. -/
def parseClockChars (cs : List Char) : Option (Nat × List Char) :=
  match munchDigits 2 cs with
  | none => none
  | some (h, cs) =>
    match munchChar ':' cs with
    | none => none
    | some cs =>
      match munchDigits 2 cs with
      | none => none
      | some (mi, cs) =>
        match cs with
        | a :: 'M' :: rest =>
          if (a = 'A' || a = 'P') && 1 ≤ h && h ≤ 12 && mi ≤ 59 then
            let h24 := h % 12 + (if a = 'P' then 12 else 0)
            some (h24 * 3600000 + mi * 60000, rest)
          else none
        | _ => none

/-- Luxon fromFormat with the combined date-and-time format, zone
America/New_York. -/
def parseDateTimeNY (s : String) : Option DateTime :=
  match parseDateChars s.toList with
  | none => none
  | some (dt, rest) =>
    match munchChar ' ' rest with
    | none => none
    | some rest =>
      match parseClockChars rest with
      | some (ms, []) => some ⟨dt.days, ms⟩
      | _ => none

/-! ## The America/New_York offset, used only when rendering UTC -/

/-- Day number of the first Sunday of a month of a year. -/
def firstSundayOfMonth (y m : Int) : Int :=
  let d1 := ymdToDays y m 1
  let wd : Int := (d1 + 3) % 7 + 1
  d1 + (7 - wd) % 7

/-- Is a civil instant inside United States daylight-saving time: from the
second Sunday of March at 2:00 to the first Sunday of November at 2:00. -/
def inEasternDST (dt : DateTime) : Bool :=
  let y := (daysToYmd dt.days).1
  let dstStart := firstSundayOfMonth y 3 + 7
  let dstEnd := firstSundayOfMonth y 11
  let t := totalMs dt
  dstStart * msPerDay + 7200000 ≤ t ∧ t < dstEnd * msPerDay + 7200000

/-- Offset of America/New_York from UTC in milliseconds at a civil
instant. -/
def nyOffsetMillis (dt : DateTime) : Int :=
  if inEasternDST dt then -14400000 else -18000000

/-- Luxon toUTC on a zoned DateTime: the UTC wall clock of the same
instant. -/
def toUTC (dt : DateTime) : DateTime :=
  plusMillis dt (- nyOffsetMillis dt)

/-- Left-pad the decimal rendering of a natural number with zeros. -/
def padNum (width n : Nat) : String :=
  let s := toString n
  String.mk (List.replicate (width - s.length) '0') ++ s

/-- Render a DateTime in the basic UTC format of the recurrence rule,
after conversion to UTC. This is toRRuleUntilUTC of the source. -/
def toRRuleUntilUTC (dt : DateTime) : String :=
  let u := toUTC dt
  let ymd := daysToYmd u.days
  padNum 4 ymd.1.toNat ++ padNum 2 ymd.2.1.toNat ++ padNum 2 ymd.2.2.toNat ++
    "T" ++ padNum 2 (u.ms / 3600000) ++ padNum 2 (u.ms / 60000 % 60) ++
    padNum 2 (u.ms / 1000 % 60) ++ "Z"

/-- Rendering used by the event builder on a possibly-invalid DateTime:
luxon toFormat on an invalid DateTime returns this fixed string. -/
def rruleUntilString : Option DateTime → String
  | some dt => toRRuleUntilUTC dt
  | none => "Invalid DateTime"

/-! ## Weekday tables and alignment -/

/-- Map from full weekday name to the two-letter recurrence code. -/
def dayToByday (s : String) : Option String :=
  if s = "Sunday" then some "SU"
  else if s = "Monday" then some "MO"
  else if s = "Tuesday" then some "TU"
  else if s = "Wednesday" then some "WE"
  else if s = "Thursday" then some "TH"
  else if s = "Friday" then some "FR"
  else if s = "Saturday" then some "SA"
  else none

/-- Map from full weekday name to the ISO weekday number. -/
def dayToNumber (s : String) : Option Nat :=
  if s = "Monday" then some 1
  else if s = "Tuesday" then some 2
  else if s = "Wednesday" then some 3
  else if s = "Thursday" then some 4
  else if s = "Friday" then some 5
  else if s = "Saturday" then some 6
  else if s = "Sunday" then some 7
  else none

/-- Forward distance in days from a weekday to a target weekday, the loop
body of the alignment function. -/
def weekdayDelta (wd target : Nat) : Nat :=
  (target + 7 - wd) % 7

/-- The running-minimum loop of the alignment function, started at
positive infinity, which is modelled by the `none` accumulator. -/
def minDeltaOf (wd : Nat) (targets : List Nat) : Option Nat :=
  targets.foldl
    (fun acc target =>
      let d := weekdayDelta wd target
      match acc with
      | none => some d
      | some m => some (Nat.min m d))
    none

/-- alignToFirstMatchingWeekday of the source: shift a start instant
forward to the first weekday of the day list. An empty day list returns
the start unchanged; a day list with no recognized name leaves the
minimum at infinity and produces an invalid DateTime, modelled as
`none`. -/
def alignToFirstMatchingWeekday (startLocal : DateTime) (days : List String) :
    Option DateTime :=
  if days.isEmpty then some startLocal
  else
    match minDeltaOf (weekday startLocal) (days.filterMap dayToNumber) with
    | none => none
    | some d => some (plusDays startLocal (d : Int))

/-! ## Data model of the assembler -/

/-- Base fields of a course, captured from a course header row. The crn is
the JavaScript Number conversion of the fourth cell; `none` models NaN. -/
structure BaseCourse where
  crn : Option Int
  title : String
  details : String
deriving DecidableEq, Repr

/-- JavaScript Number conversion restricted to the integer literals that
can occur in the schedule: optional sign and digits; the empty (trimmed)
string converts to 0; anything else is NaN, modelled as `none`. -/
def jsNumber (s : String) : Option Int :=
  let t := jsTrim s
  if t = "" then some 0
  else
    let (sign, digits) :=
      match t.toList with
      | '-' :: rest => ((-1 : Int), rest)
      | '+' :: rest => ((1 : Int), rest)
      | l => ((1 : Int), l)
    if digits ≠ [] ∧ digits.all Char.isDigit then
      some (sign * ((digits.foldl (fun acc c => acc * 10 + (c.toNat - 48)) 0 : Nat) : Int))
    else none

/-- A pending meeting pattern of the classifier-based parser. -/
structure Meeting where
  day : Option (List String) := none
  timeStrings : Option (List String) := none
  campus : Option String := none
  location : Option String := none
  room : Option String := none
  dateStrings : Option (List String) := none
deriving DecidableEq, Repr

/-- JavaScript object spread of a possibly-null meeting: spreading null
yields an empty object. -/
def spreadMeeting : Option Meeting → Meeting
  | none => {}
  | some m => m

/-- A resolved course record. DateTime-valued fields use two option
layers: the outer layer is property presence, the inner layer validity of
the luxon value. -/
structure Course where
  crn : Option Int
  title : String
  details : String
  start : Option (Option DateTime) := none
  endt : Option (Option DateTime) := none
  untl : Option (Option DateTime) := none
  day : Option (List String) := none
  campus : Option String := none
  location : Option String := none
  room : Option String := none
deriving DecidableEq, Repr

/-- Date strings used by finalizeMeeting: the meeting strings when they
have at least two entries, else the carried current strings when they
have at least two entries, else the empty list. -/
def effectiveDateStrings (m : Meeting) (cur : List String) : List String :=
  match m.dateStrings with
  | some ds =>
    if 2 ≤ ds.length then ds
    else if 2 ≤ cur.length then cur else []
  | none => if 2 ≤ cur.length then cur else []

/-- The start and end instants produced by finalizeMeeting: parse the
first date string with each time string, align the start to the first
matching weekday, and shift both instants by the whole-day difference
between the day-aligned instants. Invalidity propagates like luxon NaN
arithmetic. -/
def resolvestartEnd (ds0 startStr endStr : String) (dayList : List String) :
    Option DateTime × Option DateTime :=
  let startLocal := parseDateTimeNY (ds0 ++ " " ++ startStr)
  let endLocal := parseDateTimeNY (ds0 ++ " " ++ endStr)
  match startLocal, startLocal.bind (fun s => alignToFirstMatchingWeekday s dayList) with
  | some s, some a =>
    let diffDays := a.days - s.days
    (some (plusDays s diffDays), endLocal.map (fun e => plusDays e diffDays))
  | _, _ => (none, none)

/-- finalizeMeeting of the classifier-based parser, as a pure function of
the base course, the pending meeting and the carried date strings. The
result is the emitted course, or `none` when the meeting is dropped. -/
def finalizeMeeting (base : Option BaseCourse) (pending : Option Meeting)
    (cur : List String) : Option Course :=
  match base, pending with
  | some b, some m =>
    match m.day with
    | none => none
    | some dayList =>
      match m.timeStrings with
      | none => none
      | some ts =>
        if (effectiveDateStrings m cur).length < 2 then none
        else
          some
            { crn := b.crn, title := b.title, details := b.details,
              day := some dayList,
              start := some (resolvestartEnd ((effectiveDateStrings m cur).getD 0 "")
                (ts.getD 0 "undefined") (ts.getD 1 "undefined") dayList).1,
              endt := some (resolvestartEnd ((effectiveDateStrings m cur).getD 0 "")
                (ts.getD 0 "undefined") (ts.getD 1 "undefined") dayList).2,
              untl := some ((parseDateNY ((effectiveDateStrings m cur).getD 1 "")).map
                (fun u => minusMillis (plusDays u 1) 1)),
              campus := m.campus, location := m.location, room := m.room }
  | _, _ => none

/-! ## Row classification of the classifier-based parser -/

/-- Joined and trimmed text of a row. -/
def rowText (row : List String) : String :=
  jsTrim (joinSep " " row)

/-- A row that starts a new course block: exactly five or six non-empty
cells whose first cell is not the header label. -/
def isHeaderRow (row : List String) : Bool :=
  (row.length = 5 || row.length = 6) && row.head? ≠ some "Title"

/-- isDayRow of the source: the comma-split trimmed parts are all full
weekday names. -/
def isDayRow (text : String) : Bool :=
  ((jsSplit text ',').map jsTrim).all (fun d => (dayToByday d).isSome)

/-- isTimeRow of the source: the time regex matches somewhere. -/
def isTimeRow (text : String) : Bool :=
  anySuffix timeRowAt text.toList

/-- Condition under which a single-cell row is treated as a location row:
one cell, a comma in the text, no room on the in-progress meeting (an
empty-string room is falsy), and either an asterisk or a comma followed
by digits. -/
def isLocationRow (pending : Option Meeting) (row : List String) (text : String) :
    Bool :=
  row.length = 1 && jsContains text ',' &&
    jsFalsyOptStr ((pending.map Meeting.room).join) &&
    (jsContains text '*' || hasCommaDigits text)

/-- split3 of the source: split on the separator; with fewer than three
parts the function throws, modelled as `none`; otherwise the first part,
the middle parts re-joined with the separator, and the last part. -/
def split3 (s : String) (sep : Char) : Option (String × String × String) :=
  match jsSplit s sep with
  | first :: rest =>
    if 2 ≤ rest.length then
      some (first, joinSep (String.singleton sep) rest.dropLast,
        rest.getLastD "")
    else none
  | [] => none

/-- Effect of a location row on the pending meeting: on a successful
three-way split the trimmed parts become campus, location and room; on a
failing split only the location is set to the whole text. -/
def locationUpdate (pending : Option Meeting) (text : String) : Meeting :=
  let draft := spreadMeeting pending
  match split3 text ',' with
  | some (l, mid, r) =>
    { draft with campus := some (jsTrim l), location := some (jsTrim mid),
                 room := some (jsTrim r) }
  | none => { draft with location := some text }

/-! ## The row loop of the classifier-based parser -/

/-- Loop state of the classifier-based parser. -/
structure St1 where
  base : Option BaseCourse := none
  pending : Option Meeting := none
  cur : List String := []
  parsed : List Course := []
deriving DecidableEq, Repr

/-- Run finalizeMeeting on the state: on success the course is appended
and the pending meeting cleared; an early return leaves the state
unchanged. -/
def runFinalize1 (st : St1) : St1 :=
  match finalizeMeeting st.base st.pending st.cur with
  | some c => { st with parsed := st.parsed ++ [c], pending := none }
  | none => st

/-- Course header handling: optional six-cell concatenation of the fifth
and sixth cells into the date-range cell, finalization of the previous
meeting, the new base record from cells one, two and four, and the new
carried date strings from the date-range cell. -/
def handleHeader1 (st : St1) (row : List String) : St1 :=
  let cell4 :=
    if row.length = 6 then row.getD 4 "" ++ row.getD 5 "" else row.getD 4 ""
  let st := runFinalize1 st
  { st with
    base := some ⟨jsNumber (row.getD 3 ""), row.getD 0 "", row.getD 1 ""⟩,
    pending := none,
    cur := (jsSplitLimit cell4 '-' 2).map jsTrim }

/-- Date-range continuation handling. -/
def handleDateRange1 (st : St1) (text : String) : St1 :=
  let st := runFinalize1 st
  let ds := (jsSplitLimit text '-' 2).map jsTrim
  { st with cur := ds,
            pending := some { spreadMeeting st.pending with dateStrings := some ds } }

/-- Install a freshly split day set on the pending meeting. -/
def setDay (st : St1) (text : String) : St1 :=
  { st with
    pending := some { spreadMeeting st.pending with
                        day := some ((jsSplit text ',').map jsTrim) } }

/-- Day row handling: finalize first when the pending meeting already has
both a day set and a time pair, then install the new day set. -/
def handleDay1 (st : St1) (text : String) : St1 :=
  if (match st.pending with
      | some m => m.day.isSome && m.timeStrings.isSome
      | none => false) then
    setDay (runFinalize1 st) text
  else setDay st text

/-- Time row handling: strip whitespace, split on the first dash. -/
def handleTime1 (st : St1) (text : String) : St1 :=
  let ts := (jsSplitLimit (stripWs text) '-' 2).map jsTrim
  { st with
    pending := some { spreadMeeting st.pending with timeStrings := some ts } }

/-- One step of the row loop of the classifier-based parser. -/
def step1 (st : St1) (row : List String) : St1 :=
  if isHeaderRow row then handleHeader1 st row
  else if rowText row = "" then st
  else if testDateRange (rowText row) then handleDateRange1 st (rowText row)
  else if isDayRow (rowText row) then handleDay1 st (rowText row)
  else if isTimeRow (rowText row) then handleTime1 st (rowText row)
  else if isLocationRow st.pending row (rowText row) then
    { st with pending := some (locationUpdate st.pending (rowText row)) }
  else st

/-- JavaScript findIndex: index of the first element satisfying the
predicate. -/
def jsFindIndex (p : α → Bool) : List α → Option Nat
  | [] => none
  | a :: as => if p a then some 0 else (jsFindIndex p as).map (· + 1)

/-- Table-body extraction shared by both variants: boundary rows and the
slice strictly between them. `none` means the abort before any output is
produced. -/
def tableBody (allRows : List (List String)) : Option (List (List String)) :=
  match jsFindIndex (fun row => row.head? = some "Title") allRows,
        jsFindIndex (fun row => row.head? = some "Total Hours") allRows with
  | some headIdx, some tailIdx =>
    if tailIdx ≤ headIdx then none
    else
      let validRows := (allRows.drop (headIdx + 1)).take (tailIdx - (headIdx + 1))
      if validRows = [] then none else some validRows
  | _, _ => none

/-- The parsing stage of the classifier-based variant: `none` models the
aborts that leave the caller-visible course list untouched; otherwise the
loop runs over the table body and a trailing finalization emits the last
pending meeting. -/
def extractCourses (allRows : List (List String)) : Option (List Course) :=
  match tableBody allRows with
  | none => none
  | some validRows =>
    some (runFinalize1 (validRows.foldl step1 {})).parsed

/-! ## The row loop of the positional variant -/

/-- Loop state of the positional parser: the course under construction,
the carried date strings, the detail-row counter and the output. -/
structure St0 where
  course : Option Course := none
  cur : List String := []
  detailIdx : Nat := 0
  parsed : List Course := []
deriving DecidableEq, Repr

/-- Six-cell handling of the positional variant: the source assigns
cell index five the concatenation of itself and the out-of-bounds cell
index six, which reads as undefined. -/
def concatRow0 (row : List String) : List String :=
  if row.length = 6 then row.set 5 (row.getD 5 "" ++ "undefined") else row

/-- Time-row case of the positional variant: join the cells, split on the
first dash, resolve start and end with weekday alignment only when a
non-empty day set is already present, and set the recurrence boundary. -/
def timeCase0 (c : Course) (cur : List String) (row : List String) : Course :=
  let ts := (jsSplitLimit (joinSep "" row) '-' 2).map jsTrim
  let ds0 := cur.getD 0 "undefined"
  let startStr := ts.getD 0 "undefined"
  let endStr := ts.getD 1 "undefined"
  let untl := (parseDateNY (cur.getD 1 "undefined")).map
    (fun u => minusMillis (plusDays u 1) 1)
  let se :=
    match c.day with
    | some dl =>
      if dl.length > 0 then resolvestartEnd ds0 startStr endStr dl
      else (parseDateTimeNY (ds0 ++ " " ++ startStr),
            parseDateTimeNY (ds0 ++ " " ++ endStr))
    | none => (parseDateTimeNY (ds0 ++ " " ++ startStr),
               parseDateTimeNY (ds0 ++ " " ++ endStr))
  { c with untl := some untl, start := some se.1, endt := some se.2 }

/-- Location case of the positional variant: a throwing split leaves the
course untouched. -/
def locCase0 (c : Course) (row : List String) : Course :=
  match split3 (row.getD 0 "") ',' with
  | some (l, mid, r) =>
    { c with campus := some (jsTrim l), location := some (jsTrim mid),
             room := some (jsTrim r) }
  | none => c

/-- One step of the row loop of the positional parser: header rows reset
the counter and push the previous course; other rows dispatch on the
counter as day, time, location, or nothing. -/
def step0 (st : St0) (row : List String) : St0 :=
  if isHeaderRow row then
    let row := concatRow0 row
    { course := some { crn := jsNumber (row.getD 3 ""), title := row.getD 0 "",
                       details := row.getD 1 "" },
      cur := (jsSplitLimit (row.getD 4 "") '-' 2).map jsTrim,
      detailIdx := 0,
      parsed := st.parsed ++ st.course.toList }
  else
    let st' := { st with detailIdx := st.detailIdx + 1 }
    match st.detailIdx, st.course with
    | 0, some c =>
      let c2 : Course :=
        { c with day := some ((jsSplit (row.getD 0 "") ',').map jsTrim) }
      { st' with course := some c2 }
    | 1, some c => { st' with course := some (timeCase0 c st.cur row) }
    | 2, some c => { st' with course := some (locCase0 c row) }
    | _, _ => st'

/-- The parsing stage of the positional variant. -/
def extractCourses0 (allRows : List (List String)) : Option (List Course) :=
  match tableBody allRows with
  | none => none
  | some validRows =>
    let st := validRows.foldl step0 {}
    some (st.parsed ++ st.course.toList)

/-! ## Event construction -/

/-- The event record handed to the calendar serializer. Start and end
components are optional integers because the components of an invalid
DateTime are NaN. -/
structure ICSEvent where
  title : String
  description : String
  startArr : List (Option Int)
  startInputType : String
  startOutputType : String
  endArr : List (Option Int)
  endInputType : String
  endOutputType : String
  location : Option String
  recurrenceRule : String
  transp : String
deriving DecidableEq, Repr

/-- toICSArrayLocal of the classifier variant on a possibly-invalid
DateTime: local wall-clock year, month, day, hour, minute. -/
def toICSArrayLocal : Option DateTime → List (Option Int)
  | some dt =>
    let ymd := daysToYmd dt.days
    [some ymd.1, some ymd.2.1, some ymd.2.2,
     some ((dt.ms / 3600000 : Nat) : Int), some ((dt.ms / 60000 % 60 : Nat) : Int)]
  | none => [none, none, none, none, none]

/-- toICSArrayUTC of the positional variant: the same components after
conversion to UTC. -/
def toICSArrayUTC : Option DateTime → List (Option Int)
  | some dt => toICSArrayLocal (some (toUTC dt))
  | none => [none, none, none, none, none]

/-- BYDAY clause: map each day name through the code table and join with
commas; an unrecognized name renders as the empty string, like undefined
in a JavaScript join. -/
def byDaysOf (days : List String) : String :=
  joinSep "," (days.map (fun d => (dayToByday d).getD ""))

/-- Location string of an event: location and room joined after dropping
falsy entries, or absent when nothing remains. -/
def eventLocation (c : Course) : Option String :=
  let parts := ([c.location, c.room].filterMap id).filter (fun s => s ≠ "")
  if parts = [] then none else some (joinSep ", " parts)

/-- Recurrence rule string of a course given its day list and boundary. -/
def rruleStringOf (days : List String) (untl : Option DateTime) : String :=
  "FREQ=WEEKLY;BYDAY=" ++ byDaysOf days ++ ";INTERVAL=1;UNTIL=" ++
    rruleUntilString untl

/-- Event construction of the classifier variant: `none` when any of the
four temporal properties is unassigned, local rendering otherwise. -/
def mkEventLocal (c : Course) : Option ICSEvent :=
  match c.day, c.start, c.endt, c.untl with
  | some days, some s, some e, some u =>
    some
      { title := c.details, description := c.title,
        startArr := toICSArrayLocal s,
        startInputType := "local", startOutputType := "local",
        endArr := toICSArrayLocal e,
        endInputType := "local", endOutputType := "local",
        location := eventLocation c,
        recurrenceRule := rruleStringOf days u,
        transp := "OPAQUE" }
  | _, _, _, _ => none

/-- Event construction of the positional variant: identical except for
UTC rendering of the instants and the matching type flags. -/
def mkEventUTC (c : Course) : Option ICSEvent :=
  match c.day, c.start, c.endt, c.untl with
  | some days, some s, some e, some u =>
    some
      { title := c.details, description := c.title,
        startArr := toICSArrayUTC s,
        startInputType := "utc", startOutputType := "utc",
        endArr := toICSArrayUTC e,
        endInputType := "utc", endOutputType := "utc",
        location := eventLocation c,
        recurrenceRule := rruleStringOf days u,
        transp := "OPAQUE" }
  | _, _, _, _ => none

/-- Selection precondition of the table widget: a row is selectable only
when the course has a non-empty day list and assigned start and end. -/
def selectable (c : Course) : Bool :=
  (match c.day with
   | some l => !l.isEmpty
   | none => false) && c.start.isSome && c.endt.isSome

/-! ## Layout reconstruction -/

/-- A positioned text fragment of a page: the string content, the
horizontal offset and the baseline, both taken from the transform. Only
genuine text items reach this stage; marked-content items are filtered
out beforehand. -/
structure Frag where
  str : String
  x : Rat
  y : Rat
deriving DecidableEq, Repr

/-- JavaScript Math.round: the floor of the value plus one half, computed
on the numerator and denominator directly. -/
def jsRound (q : Rat) : Int := (2 * q.num + (q.den : Int)).fdiv (2 * (q.den : Int))

/-- Cell order within a row: ascending x. -/
def sortByX (g : List Frag) : List Frag :=
  g.insertionSort (fun a b => a.x ≤ b.x)

/-- Row keys of one page: the distinct rounded baselines in descending
order. -/
def pageKeys (frags : List Frag) : List Int :=
  ((frags.map (fun f => jsRound f.y)).dedup).insertionSort (fun a b => b ≤ a)

/-- The fragments of one rounded baseline, in arrival order. -/
def groupFor (frags : List Frag) (k : Int) : List Frag :=
  frags.filter (fun f => jsRound f.y = k)

/-- Cells of one row: sort the group by x, trim each string, drop the
empties. -/
def rowCells (g : List Frag) : List String :=
  ((sortByX g).map (fun f => jsTrim f.str)).filter (fun s => s ≠ "")

/-- Rows of one page with their keys; rows that end up empty are
discarded. -/
def pageRowsKeyed (frags : List Frag) : List (Int × List String) :=
  ((pageKeys frags).map (fun k => (k, rowCells (groupFor frags k)))).filter
    (fun p => p.2 ≠ [])

/-- Rows of one page. -/
def pageRows (frags : List Frag) : List (List String) :=
  (pageRowsKeyed frags).map Prod.snd

/-- Rows of the whole document with their keys, pages concatenated in
document order. -/
def reconstructKeyed (pages : List (List Frag)) : List (Int × List String) :=
  (pages.map pageRowsKeyed).flatten

/-- Rows of the whole document, the input of the assembler. -/
def reconstructRows (pages : List (List Frag)) : List (List String) :=
  (pages.map pageRows).flatten

/-! ## Instances for the sorting relations of the reconstructor -/

instance fragLeTotal : IsTotal Frag (fun a b => a.x ≤ b.x) :=
  ⟨fun a b => le_total a.x b.x⟩

instance fragLeTrans : IsTrans Frag (fun a b => a.x ≤ b.x) :=
  ⟨fun _ _ _ hab hbc => le_trans hab hbc⟩

instance intGeTotal : IsTotal Int (fun a b => b ≤ a) :=
  ⟨fun a b => le_total b a⟩

instance intGeTrans : IsTrans Int (fun a b => b ≤ a) :=
  ⟨fun _ _ _ hab hbc => le_trans hbc hab⟩

/-! ## Sample data used by witnesses and counterexamples -/

/-- Base course sample. -/
def bSample : BaseCourse := { crn := some 123, title := "T", details := "D" }

/-- Meeting sample: Wednesday slot of a Monday-starting range. -/
def mSample : Meeting :=
  { day := some ["Wednesday"], timeStrings := some ["09:00AM", "09:50AM"],
    dateStrings := some ["01/06/2025", "04/25/2025"] }

/-- The course emitted for the sample meeting. -/
def cSample : Course :=
  { crn := some 123, title := "T", details := "D",
    start := some (some ⟨20096, 32400000⟩),
    endt := some (some ⟨20096, 35400000⟩),
    untl := some (some ⟨20203, 86399999⟩),
    day := some ["Wednesday"] }

/-- Civil start instant of the sample: 2025-01-06 (a Monday) at 9:00. -/
def startSample : DateTime := ⟨20094, 32400000⟩

/-- Civil end instant of the sample: 2025-01-06 at 9:50. -/
def endSample : DateTime := ⟨20094, 35400000⟩

/-- Row sequence of one complete course block. -/
def rowsSample : List (List String) :=
  [["Title"], ["Intro to X", "Lecture", "x", "12345", "01/06/2025 - 04/25/2025"],
   ["Monday"], ["09:00 AM - 09:50 AM"], ["Total Hours"]]

/-- Course parsed from the sample row sequence. -/
def cRowsSample : Course :=
  { crn := some 12345, title := "Intro to X", details := "Lecture",
    start := some (some ⟨20094, 32400000⟩),
    endt := some (some ⟨20094, 35400000⟩),
    untl := some (some ⟨20203, 86399999⟩),
    day := some ["Monday"] }

/-- A six-cell course header row whose date range was split by the
extractor across the fifth and sixth cells. -/
def sixCellRow : List String :=
  ["T", "D", "X", "123", "01/06/2025 -", "04/25/2025"]

/-- Row sequence exercising a failing three-way split after a successful
one. -/
def locationFallbackRows : List (List String) :=
  [["Title"], ["T", "D", "X", "123", "01/06/2025 - 04/25/2025"],
   ["Monday"], ["09:00 AM - 09:50 AM"], ["A*,B,"], ["C, 1"], ["Total Hours"]]

/-- Row sequence with a course header and no detail rows. -/
def bareCourseRows : List (List String) :=
  [["Title"], ["T", "D", "x", "123", "01/06/2025 - 04/25/2025"],
   ["Total Hours"]]

/-! ## Helper lemmas -/

lemma parseDateChars_ms (cs : List Char) (dt : DateTime) (rest : List Char)
    (h : parseDateChars cs = some (dt, rest)) : dt.ms = 0 := by
  unfold parseDateChars at h
  split at h
  · cases h
  · split at h
    · simp only [Option.some.injEq, Prod.mk.injEq] at h
      rw [← h.1]
    · cases h

lemma parseDateNY_ms (s : String) (u : DateTime) (h : parseDateNY s = some u) :
    u.ms = 0 := by
  unfold parseDateNY at h
  split at h
  · next dt hd =>
      cases h
      exact parseDateChars_ms _ _ _ hd
  · cases h

lemma lastMillisOfDay (u : DateTime) (h : u.ms = 0) :
    minusMillis (plusDays u 1) 1 = ⟨u.days, 86399999⟩ := by
  unfold minusMillis plusDays ofTotalMs totalMs msPerDay
  rw [DateTime.mk.injEq]
  constructor <;> simp only [h] <;> omega

lemma jsFindIndex_eq_none {α : Type} (p : α → Bool) (l : List α)
    (h : ∀ a ∈ l, p a = false) : jsFindIndex p l = none := by
  induction l with
  | nil => rfl
  | cons a as ih =>
    unfold jsFindIndex
    rw [h a (List.mem_cons_self a as), if_neg (by simp), ih]
    · rfl
    · exact fun r hr => h r (List.mem_cons_of_mem a hr)

lemma minDeltaOf_go (wd : Nat) (ts : List Nat) :
    ∀ m : Nat,
      ∃ r, (ts.foldl
        (fun acc target =>
          let d := weekdayDelta wd target
          match acc with
          | none => some d
          | some mm => some (Nat.min mm d)) (some m)) = some r ∧
        (r = m ∨ ∃ t ∈ ts, r = weekdayDelta wd t) ∧ r ≤ m ∧
        (∀ t ∈ ts, r ≤ weekdayDelta wd t) := by
  induction ts with
  | nil => exact fun m => ⟨m, rfl, Or.inl rfl, le_refl m, by simp⟩
  | cons a as ih =>
    intro m
    obtain ⟨r, h1, h2, h3, h4⟩ := ih (Nat.min m (weekdayDelta wd a))
    refine ⟨r, h1, ?_, ?_, ?_⟩
    · rcases h2 with h2 | ⟨t, ht, h2⟩
      · rcases Nat.le_total m (weekdayDelta wd a) with hle | hle
        · exact Or.inl (by rw [h2]; exact Nat.min_eq_left hle)
        · exact Or.inr ⟨a, List.mem_cons_self a as,
            by rw [h2]; exact Nat.min_eq_right hle⟩
      · exact Or.inr ⟨t, List.mem_cons_of_mem a ht, h2⟩
    · exact le_trans h3 (Nat.min_le_left _ _)
    · intro t ht
      rcases List.mem_cons.mp ht with rfl | ht
      · exact le_trans h3 (Nat.min_le_right _ _)
      · exact h4 t ht

lemma minDeltaOf_spec (wd : Nat) (targets : List Nat) (hne : targets ≠ []) :
    ∃ r, minDeltaOf wd targets = some r ∧
      (∃ t ∈ targets, r = weekdayDelta wd t) ∧
      (∀ t ∈ targets, r ≤ weekdayDelta wd t) := by
  match targets with
  | [] => exact absurd rfl hne
  | a :: as =>
    obtain ⟨r, h1, h2, h3, h4⟩ := minDeltaOf_go wd as (weekdayDelta wd a)
    refine ⟨r, h1, ?_, ?_⟩
    · rcases h2 with h2 | ⟨t, ht, h2⟩
      · exact ⟨a, List.mem_cons_self a as, h2⟩
      · exact ⟨t, List.mem_cons_of_mem a ht, h2⟩
    · intro t ht
      rcases List.mem_cons.mp ht with rfl | ht
      · exact h3
      · exact h4 t ht

lemma dayToNumber_bounds (s : String) (n : Nat) (h : dayToNumber s = some n) :
    1 ≤ n ∧ n ≤ 7 := by
  unfold dayToNumber at h
  split_ifs at h <;> (try cases h) <;> omega

lemma weekday_plusDays_delta (s : DateTime) (t : Nat) (h1 : 1 ≤ t) (h7 : t ≤ 7) :
    weekday (plusDays s (weekdayDelta (weekday s) t : Int)) = t := by
  simp only [weekday, plusDays, weekdayDelta]
  omega

lemma weekdayDelta_self (wd : Nat) : weekdayDelta wd wd = 0 := by
  unfold weekdayDelta; omega

lemma plusDays_zero (s : DateTime) : plusDays s 0 = s := by
  unfold plusDays
  cases s
  simp

lemma align_of_mem (s2 : DateTime) (dayList : List String) (hne : dayList ≠ [])
    (hmem : weekday s2 ∈ dayList.filterMap dayToNumber) :
    alignToFirstMatchingWeekday s2 dayList = some s2 := by
  unfold alignToFirstMatchingWeekday
  rw [if_neg (by simpa using hne)]
  obtain ⟨r, h1, -, h3⟩ := minDeltaOf_spec (weekday s2) (dayList.filterMap dayToNumber)
    (by intro hnil; rw [hnil] at hmem; cases hmem)
  have hr0 : r = 0 := Nat.le_zero.mp (by
    have := h3 (weekday s2) hmem
    rwa [weekdayDelta_self] at this)
  rw [h1, hr0]
  simp [plusDays_zero]

lemma finalizeMeeting_present (b : Option BaseCourse) (p : Option Meeting)
    (cur : List String) (c : Course) (h : finalizeMeeting b p cur = some c) :
    c.day.isSome ∧ c.start.isSome ∧ c.endt.isSome ∧ c.untl.isSome := by
  rcases b with _ | b <;> rcases p with _ | m
  · cases h
  · cases h
  · cases h
  · rcases hdy : m.day with _ | dl <;>
      rcases hts : m.timeStrings with _ | ts <;>
      simp only [finalizeMeeting, hdy, hts] at h
    · cases h
    · cases h
    · cases h
    · split at h
      · cases h
      · cases h
        exact ⟨rfl, rfl, rfl, rfl⟩

lemma runFinalize1_mem (st : St1) (c : Course)
    (h : c ∈ (runFinalize1 st).parsed) :
    c ∈ st.parsed ∨ finalizeMeeting st.base st.pending st.cur = some c := by
  unfold runFinalize1 at h
  rcases heq : finalizeMeeting st.base st.pending st.cur with _ | c2 <;>
    rw [heq] at h
  · exact Or.inl h
  · rcases List.mem_append.mp h with h | h
    · exact Or.inl h
    · rcases List.mem_singleton.mp h with rfl
      exact Or.inr rfl

lemma step1_mem (st : St1) (row : List String) (c : Course)
    (h : c ∈ (step1 st row).parsed) :
    c ∈ st.parsed ∨
      (c.day.isSome ∧ c.start.isSome ∧ c.endt.isSome ∧ c.untl.isSome) := by
  unfold step1 at h
  split at h
  · unfold handleHeader1 at h
    rcases runFinalize1_mem _ _ h with h | h
    · exact Or.inl h
    · exact Or.inr (finalizeMeeting_present _ _ _ _ h)
  · split at h
    · exact Or.inl h
    · split at h
      · unfold handleDateRange1 at h
        rcases runFinalize1_mem _ _ h with h | h
        · exact Or.inl h
        · exact Or.inr (finalizeMeeting_present _ _ _ _ h)
      · split at h
        · unfold handleDay1 at h
          split at h
          · unfold setDay at h
            rcases runFinalize1_mem _ _ h with h | h
            · exact Or.inl h
            · exact Or.inr (finalizeMeeting_present _ _ _ _ h)
          · exact Or.inl h
        · split at h
          · exact Or.inl h
          · split at h
            · exact Or.inl h
            · exact Or.inl h

lemma foldl_step1_mem (rows : List (List String)) (st : St1) (c : Course)
    (h : c ∈ (rows.foldl step1 st).parsed) :
    c ∈ st.parsed ∨
      (c.day.isSome ∧ c.start.isSome ∧ c.endt.isSome ∧ c.untl.isSome) := by
  induction rows generalizing st with
  | nil => exact Or.inl h
  | cons r rs ih =>
    rcases ih (step1 st r) h with h2 | h2
    · exact step1_mem st r c h2
    · exact Or.inr h2

/-! ## Claim theorems -/

/-- C1: for a meeting with a non-empty day set of recognized weekday names
and a parseable start instant, finalization shifts both the start and end
instants forward by exactly the minimum over the day set of the forward
weekday distance modulo seven, the resolved start weekday is an element
of the day set, an already-aligned start gets a zero shift, and
re-aligning the aligned start is the identity. -/
theorem C1_weekday_alignment (b : BaseCourse) (m : Meeting) (cur : List String)
    (c : Course) (dayList ts : List String) (s e : DateTime)
    (hdaym : m.day = some dayList) (hne : dayList ≠ [])
    (hrec : ∀ d ∈ dayList, (dayToNumber d).isSome)
    (htsm : m.timeStrings = some ts)
    (hs : parseDateTimeNY ((effectiveDateStrings m cur).getD 0 "" ++ " " ++
      ts.getD 0 "undefined") = some s)
    (he : parseDateTimeNY ((effectiveDateStrings m cur).getD 0 "" ++ " " ++
      ts.getD 1 "undefined") = some e)
    (hfin : finalizeMeeting (some b) (some m) cur = some c) :
    ∃ δ : Nat,
      minDeltaOf (weekday s) (dayList.filterMap dayToNumber) = some δ ∧
      (∃ t ∈ dayList.filterMap dayToNumber, δ = weekdayDelta (weekday s) t) ∧
      (∀ t ∈ dayList.filterMap dayToNumber, δ ≤ weekdayDelta (weekday s) t) ∧
      c.start = some (some (plusDays s δ)) ∧
      c.endt = some (some (plusDays e δ)) ∧
      weekday (plusDays s δ) ∈ dayList.filterMap dayToNumber ∧
      (weekday s ∈ dayList.filterMap dayToNumber → δ = 0) ∧
      alignToFirstMatchingWeekday (plusDays s δ) dayList = some (plusDays s δ) := by
  have htne : dayList.filterMap dayToNumber ≠ [] := by
    rcases dayList with _ | ⟨d, ds⟩
    · exact absurd rfl hne
    · obtain ⟨n, hn⟩ := Option.isSome_iff_exists.mp
        (hrec d (List.mem_cons_self d ds))
      intro hnil
      have : n ∈ (d :: ds).filterMap dayToNumber := by
        simp [List.filterMap_cons, hn]
      rw [hnil] at this
      cases this
  obtain ⟨δ, hδ, hmem, hmin⟩ :=
    minDeltaOf_spec (weekday s) (dayList.filterMap dayToNumber) htne
  have halign : alignToFirstMatchingWeekday s dayList = some (plusDays s δ) := by
    unfold alignToFirstMatchingWeekday
    rw [if_neg (by simpa using hne), hδ]
  have hres : resolvestartEnd ((effectiveDateStrings m cur).getD 0 "")
      (ts.getD 0 "undefined") (ts.getD 1 "undefined") dayList =
      (some (plusDays s δ), some (plusDays e δ)) := by
    unfold resolvestartEnd
    rw [hs, he]
    dsimp only [Option.bind]
    rw [halign]
    have hd2 : s.days + (δ : Int) - s.days = (δ : Int) := by omega
    simp only [plusDays, hd2, Option.map]
  obtain ⟨t0, ht0, hδt0⟩ := hmem
  obtain ⟨d0, hd0mem, hd0⟩ := List.mem_filterMap.mp ht0
  obtain ⟨hb1, hb7⟩ := dayToNumber_bounds d0 t0 hd0
  have hwd : weekday (plusDays s δ) = t0 := by
    rw [hδt0]
    exact weekday_plusDays_delta s t0 hb1 hb7
  have hwdmem : weekday (plusDays s δ) ∈ dayList.filterMap dayToNumber := by
    rw [hwd]; exact ht0
  refine ⟨δ, hδ, ⟨t0, ht0, hδt0⟩, hmin, ?_, ?_, hwdmem, ?_, ?_⟩
  · rcases hday2 : m.day with _ | dl2
    · rw [hday2] at hdaym; cases hdaym
    · rw [hday2] at hdaym
      cases hdaym
      rcases hts2 : m.timeStrings with _ | ts2
      · rw [hts2] at htsm; cases htsm
      · rw [hts2] at htsm
        cases htsm
        simp only [finalizeMeeting, hday2, hts2] at hfin
        split at hfin
        · cases hfin
        · cases hfin
          simp only [hres]
  · rcases hday2 : m.day with _ | dl2
    · rw [hday2] at hdaym; cases hdaym
    · rw [hday2] at hdaym
      cases hdaym
      rcases hts2 : m.timeStrings with _ | ts2
      · rw [hts2] at htsm; cases htsm
      · rw [hts2] at htsm
        cases htsm
        simp only [finalizeMeeting, hday2, hts2] at hfin
        split at hfin
        · cases hfin
        · cases hfin
          simp only [hres]
  · intro hwm
    have := hmin (weekday s) hwm
    rw [weekdayDelta_self] at this
    exact Nat.le_zero.mp this
  · exact align_of_mem (plusDays s δ) dayList hne hwdmem

/-- C2: for a meeting whose date-range second date parses, the recurrence
boundary equals the civil midnight of that date plus one day minus one
millisecond, which is the last millisecond of that calendar day in the
civil zone. -/
theorem C2_until_boundary (b : BaseCourse) (m : Meeting) (cur : List String)
    (c : Course) (u : DateTime)
    (hfin : finalizeMeeting (some b) (some m) cur = some c)
    (hu : parseDateNY ((effectiveDateStrings m cur).getD 1 "") = some u) :
    c.untl = some (some (minusMillis (plusDays u 1) 1)) ∧
    minusMillis (plusDays u 1) 1 = ⟨u.days, 86399999⟩ := by
  refine ⟨?_, lastMillisOfDay u (parseDateNY_ms _ _ hu)⟩
  rcases hday : m.day with _ | dl <;>
    rcases hts : m.timeStrings with _ | ts <;>
    simp only [finalizeMeeting, hday, hts] at hfin
  · cases hfin
  · cases hfin
  · cases hfin
  · split at hfin
    · cases hfin
    · cases hfin
      simp only [hu]
      rfl

/-- C3: a pending meeting of a course block is emitted exactly when it
has a non-empty day set, a time pair, and effective date-range strings
with at least two entries; otherwise finalization returns nothing,
raising no error. Day sets stored by the assembler are never empty, which
the nonemptiness hypothesis records. -/
theorem C3_emission_iff (b : BaseCourse) (m : Meeting) (cur : List String)
    (hday : ∀ l, m.day = some l → l ≠ []) :
    (∃ c, finalizeMeeting (some b) (some m) cur = some c) ↔
      ((∃ l, m.day = some l ∧ l ≠ []) ∧ m.timeStrings.isSome ∧
        2 ≤ (effectiveDateStrings m cur).length) := by
  constructor
  · rintro ⟨c, hc⟩
    rcases hdy : m.day with _ | dl <;>
      rcases hts : m.timeStrings with _ | ts <;>
      simp only [finalizeMeeting, hdy, hts] at hc
    · cases hc
    · cases hc
    · cases hc
    · split at hc
      · cases hc
      · exact ⟨⟨dl, rfl, hday dl hdy⟩, by simp [hts], by omega⟩
  · rintro ⟨⟨l, hl, -⟩, hts, hlen⟩
    obtain ⟨ts, hts2⟩ := Option.isSome_iff_exists.mp hts
    have hsome : (finalizeMeeting (some b) (some m) cur).isSome := by
      simp only [finalizeMeeting, hl, hts2]
      rw [if_neg (by omega)]
      rfl
    exact Option.isSome_iff_exists.mp hsome

/-- C4: when no row starts with the header label, or none starts with the
footer label, or the first footer row is at or before the first header
row, parsing aborts with no output, leaving the caller-visible course
list untouched. -/
theorem C4_structural_abort (allRows : List (List String))
    (h : (∀ r ∈ allRows, r.head? ≠ some "Title")
       ∨ (∀ r ∈ allRows, r.head? ≠ some "Total Hours")
       ∨ (∃ hIdx tIdx,
            jsFindIndex (fun row => row.head? = some "Title") allRows = some hIdx ∧
            jsFindIndex (fun row => row.head? = some "Total Hours") allRows = some tIdx ∧
            tIdx ≤ hIdx)) :
    extractCourses allRows = none := by
  unfold extractCourses tableBody
  rcases h with h | h | ⟨hi, ti, hh, ht, hle⟩
  · rw [jsFindIndex_eq_none (fun row => decide (row.head? = some "Title")) allRows
      (fun a ha => by simpa using h a ha)]
  · rw [jsFindIndex_eq_none (fun row => decide (row.head? = some "Total Hours")) allRows
      (fun a ha => by simpa using h a ha)]
    rcases hfi : jsFindIndex (fun row => decide (row.head? = some "Title")) allRows
      with _ | hi <;> rw [hfi]
  · simp only [hh, ht]
    rw [if_pos hle]

/-- C10: every course emitted by the classifier-based parser has the day,
start, end and until properties assigned simultaneously, so the selection
precondition, which checks only day, start and end, already guarantees
that the until check of the export stage never excludes a selected
course. -/
theorem C10_temporal_invariant (allRows : List (List String))
    (courses : List Course) (hp : extractCourses allRows = some courses) :
    ∀ c ∈ courses,
      (c.day.isSome ∧ c.start.isSome ∧ c.endt.isSome ∧ c.untl.isSome) ∧
      (selectable c = true → (mkEventLocal c).isSome) := by
  intro c hc
  have hpresent : c.day.isSome ∧ c.start.isSome ∧ c.endt.isSome ∧ c.untl.isSome := by
    unfold extractCourses at hp
    rcases htb : tableBody allRows with _ | validRows <;> rw [htb] at hp
    · cases hp
    · cases hp
      rcases runFinalize1_mem _ _ hc with h | h
      · rcases foldl_step1_mem validRows {} c h with h2 | h2
        · cases h2
        · exact h2
      · exact finalizeMeeting_present _ _ _ _ h
  refine ⟨hpresent, fun _ => ?_⟩
  obtain ⟨h1, h2, h3, h4⟩ := hpresent
  obtain ⟨d, hd⟩ := Option.isSome_iff_exists.mp h1
  obtain ⟨s, hs⟩ := Option.isSome_iff_exists.mp h2
  obtain ⟨e, he⟩ := Option.isSome_iff_exists.mp h3
  obtain ⟨u, hu⟩ := Option.isSome_iff_exists.mp h4
  simp [mkEventLocal, hd, hs, he, hu]

lemma map_getD_of_map_some (l cs : List String)
    (h : l.map dayToByday = cs.map some) :
    l.map (fun d => (dayToByday d).getD "") = cs := by
  induction l generalizing cs with
  | nil => cases cs <;> simp_all
  | cons a as ih =>
    cases cs with
    | nil => simp_all
    | cons c cs2 =>
      simp only [List.map_cons, List.cons.injEq] at h ⊢
      exact ⟨by rw [h.1]; rfl, ih cs2 h.2⟩

/-- C7: for an exportable course whose day names all carry two-letter
codes, the recurrence rule is the weekly rule with the codes joined by
commas in the original day order, followed by the boundary rendered in
the basic UTC format. -/
theorem C7_rrule_format (c : Course) (days codes : List String)
    (s e : Option DateTime) (u : DateTime)
    (hday : c.day = some days) (hcodes : days.map dayToByday = codes.map some)
    (hs : c.start = some s) (he : c.endt = some e)
    (hu : c.untl = some (some u)) :
    ∃ ev, mkEventLocal c = some ev ∧
      ev.recurrenceRule =
        "FREQ=WEEKLY;BYDAY=" ++ joinSep "," codes ++
          ";INTERVAL=1;UNTIL=" ++ toRRuleUntilUTC u := by
  refine ⟨{ title := c.details, description := c.title,
            startArr := toICSArrayLocal s, startInputType := "local",
            startOutputType := "local", endArr := toICSArrayLocal e,
            endInputType := "local", endOutputType := "local",
            location := eventLocation c,
            recurrenceRule := rruleStringOf days (some u),
            transp := "OPAQUE" }, ?_, ?_⟩
  · simp only [mkEventLocal, hday, hs, he, hu]
  · simp only [rruleStringOf, byDaysOf, rruleUntilString,
      map_getD_of_map_some days codes hcodes]

/-- C9 (amended): the two event builders agree on which courses produce
an event and on every field except the start and end component arrays and
the input and output type flags, which are utc in one variant and local
in the other. -/
theorem C9_event_stage_equivalence (c : Course) :
    ((mkEventUTC c).isSome ↔ (mkEventLocal c).isSome) ∧
    (∀ e0 e1, mkEventUTC c = some e0 → mkEventLocal c = some e1 →
      e0.title = e1.title ∧ e0.description = e1.description ∧
      e0.location = e1.location ∧ e0.recurrenceRule = e1.recurrenceRule ∧
      e0.transp = e1.transp ∧
      e0.startInputType = "utc" ∧ e0.startOutputType = "utc" ∧
      e0.endInputType = "utc" ∧ e0.endOutputType = "utc" ∧
      e1.startInputType = "local" ∧ e1.startOutputType = "local" ∧
      e1.endInputType = "local" ∧ e1.endOutputType = "local") := by
  rcases hd : c.day with _ | days <;> rcases hs : c.start with _ | s <;>
    rcases he : c.endt with _ | e <;> rcases hu : c.untl with _ | u <;>
    simp only [mkEventUTC, mkEventLocal, hd, hs, he, hu] <;>
    constructor <;> simp

/-- C6 (amended): a row reaching the location test is treated as a
location row exactly under the stated conditions; a successful three-way
split installs the trimmed campus, location and room; a failing split
sets the whole text as the location while campus and room keep their
previous values on the in-progress meeting, absent when none were set;
and the three-way split assigns the first comma token to the left, the
last to the right, and the re-joined middle to the center. -/
theorem C6_location_classification (st : St1) (row : List String)
    (p : Option Meeting) (a bm cm text s2 first : String) (rest : List String)
    (hh : isHeaderRow row = false) (hne : ¬ rowText row = "")
    (hdr : testDateRange (rowText row) = false)
    (hday : isDayRow (rowText row) = false)
    (htime : isTimeRow (rowText row) = false) :
    ((step1 st row).pending =
      if isLocationRow st.pending row (rowText row) then
        some (locationUpdate st.pending (rowText row))
      else st.pending) ∧
    (isLocationRow p row text = true ↔
      (row.length = 1 ∧ jsContains text ',' = true ∧
        jsFalsyOptStr ((p.map Meeting.room).join) = true ∧
        (jsContains text '*' = true ∨ hasCommaDigits text = true))) ∧
    (split3 text ',' = some (a, bm, cm) →
      (locationUpdate p text).campus = some (jsTrim a) ∧
      (locationUpdate p text).location = some (jsTrim bm) ∧
      (locationUpdate p text).room = some (jsTrim cm) ∧
      (locationUpdate p text).day = (spreadMeeting p).day ∧
      (locationUpdate p text).timeStrings = (spreadMeeting p).timeStrings ∧
      (locationUpdate p text).dateStrings = (spreadMeeting p).dateStrings) ∧
    (split3 text ',' = none →
      (locationUpdate p text).location = some text ∧
      (locationUpdate p text).campus = (spreadMeeting p).campus ∧
      (locationUpdate p text).room = (spreadMeeting p).room) ∧
    (jsSplit s2 ',' = first :: rest → 2 ≤ rest.length →
      split3 s2 ',' = some (first, joinSep "," rest.dropLast, rest.getLastD "")) := by
  refine ⟨?_, ?_, ?_, ?_, ?_⟩
  · unfold step1
    rw [if_neg (by simp [hh]), if_neg (by simpa using hne), if_neg (by simp [hdr]),
      if_neg (by simp [hday]), if_neg (by simp [htime])]
    by_cases hloc : isLocationRow st.pending row (rowText row) = true
    · rw [if_pos (by simpa using hloc), if_pos hloc]
    · rw [if_neg (by simpa using hloc), if_neg hloc]
  · unfold isLocationRow
    simp [and_assoc]
  · intro hsp
    unfold locationUpdate
    rw [hsp]
    exact ⟨rfl, rfl, rfl, rfl, rfl, rfl⟩
  · intro hsp
    unfold locationUpdate
    rw [hsp]
    exact ⟨rfl, rfl, rfl⟩
  · intro hsp hlen
    unfold split3
    rw [hsp]
    dsimp only
    rw [if_pos hlen]
    rfl

lemma pageKeys_sorted (frags : List Frag) :
    List.Sorted (fun a b : Int => a > b) (pageKeys frags) := by
  have hs : List.Sorted (fun a b : Int => b ≤ a) (pageKeys frags) :=
    List.sorted_insertionSort _ _
  have hn : (pageKeys frags).Nodup := by
    unfold pageKeys
    exact ((List.perm_insertionSort _ _).nodup_iff).mpr (List.nodup_dedup _)
  exact (hn.and hs).imp fun h => lt_of_le_of_ne h.2 (Ne.symm h.1)


/-- C5: the positional variant concatenates cell index five with the
out-of-bounds cell index six and leaves the date-range cell untouched, so
its carried date strings come from the fifth cell alone; the
classifier-based variant concatenates the fifth and sixth cells and
derives both halves, matching the claim. -/
theorem C5_six_cell_divergence :
    (step0 {} sixCellRow).cur = ["01/06/2025", ""] ∧
    (step1 {} sixCellRow).cur = ["01/06/2025", "04/25/2025"] ∧
    (step1 {} sixCellRow).base =
      some { crn := some 123, title := "T", details := "D" } ∧
    concatRow0 sixCellRow =
      ["T", "D", "X", "123", "01/06/2025 -", "04/25/2025undefined"] := by
  decide


/-- C6 counterexample: the final row splits into fewer than three parts,
so the claim requires campus and room to be absent on the resulting
course; the parser instead keeps the campus and the empty room installed
by the earlier location row. -/
theorem C6_counterexample :
    split3 "C, 1" ',' = none ∧
    (extractCourses locationFallbackRows).map
      (fun cs => cs.map (fun c => (c.campus, c.location, c.room))) =
      some [(some "A*", some "C, 1", some "")] := by
  decide


/-- C9 counterexample: on the same row sequence the positional variant
emits the bare course while the classifier-based variant emits nothing,
so the variants differ in parsing, not only in instant rendering. -/
theorem C9_counterexample :
    extractCourses0 bareCourseRows ≠ extractCourses bareCourseRows := by
  decide

lemma sortByX_sorted (g : List Frag) :
    List.Sorted (fun a b : Frag => a.x ≤ b.x) (sortByX g) :=
  List.sorted_insertionSort _ _

lemma groupFor_key (frags : List Frag) (k : Int) :
    ∀ f ∈ groupFor frags k, jsRound f.y = k := by
  intro f hf
  have := List.mem_filter.mp hf
  simpa using this.2

lemma reconstructRows_cells (pages : List (List Frag)) :
    ∀ r ∈ reconstructRows pages, r ≠ [] ∧ ∀ cell ∈ r, cell ≠ "" := by
  intro r hr
  unfold reconstructRows at hr
  obtain ⟨rowsOfPage, hmem, hr⟩ := List.mem_flatten.mp hr
  obtain ⟨page, -, hpage⟩ := List.mem_map.mp hmem
  rw [← hpage] at hr
  unfold pageRows at hr
  obtain ⟨pair, hpair, hsnd⟩ := List.mem_map.mp hr
  have hfilter := List.mem_filter.mp hpair
  constructor
  · rw [← hsnd]
    simpa using hfilter.2
  · intro cell hcell
    rw [← hsnd] at hcell
    obtain ⟨k, -, hk⟩ := List.mem_map.mp hfilter.1
    have hcells : cell ∈ rowCells (groupFor page k) := by
      rw [← hk] at hcell
      exact hcell
    unfold rowCells at hcells
    simpa using (List.mem_filter.mp hcells).2

/-- C8 (amended): the reconstructor groups fragments by integer-rounded
baseline, orders the cells of a row by non-decreasing x, orders the rows
of each page by strictly decreasing rounded baseline with pages
concatenated in document order, drops cells that trim to empty, and
discards rows left with no cells. -/
theorem C8_layout_reconstruction (pages : List (List Frag))
    (frags : List Frag) (k : Int) :
    List.Sorted (fun a b : Int => a > b) (pageKeys frags) ∧
    List.Sorted (fun a b : Frag => a.x ≤ b.x) (sortByX (groupFor frags k)) ∧
    (∀ f ∈ groupFor frags k, jsRound f.y = k) ∧
    (∀ r ∈ reconstructRows pages, r ≠ [] ∧ ∀ cell ∈ r, cell ≠ "") ∧
    reconstructRows pages = (pages.map pageRows).flatten :=
  ⟨pageKeys_sorted frags, sortByX_sorted (groupFor frags k),
    groupFor_key frags k, reconstructRows_cells pages, rfl⟩

/-- C8 counterexample: with two pages the rows of the whole document are
not in strictly decreasing order of rounded baseline, and a row with two
fragments of equal x is not in strictly increasing x order, refuting the
claim as stated. -/
theorem C8_counterexample :
    ¬ List.Sorted (fun a b : Int × List String => a.1 > b.1)
        (reconstructKeyed [[⟨"a", 0, 0⟩], [⟨"b", 0, 10⟩]]) ∧
    ¬ List.Sorted (fun a b : Frag => a.x < b.x)
        (sortByX [⟨"a", 0, 0⟩, ⟨"b", 0, 0⟩]) := by
  decide

/-! ## Witnesses -/

/-- C1 witness: the Monday start aligned to a Wednesday day set shifts by
two days. -/
theorem C1_witness :
    ∃ δ : Nat,
      minDeltaOf (weekday startSample)
        ((["Wednesday"] : List String).filterMap dayToNumber) = some δ ∧
      (∃ t ∈ (["Wednesday"] : List String).filterMap dayToNumber,
        δ = weekdayDelta (weekday startSample) t) ∧
      (∀ t ∈ (["Wednesday"] : List String).filterMap dayToNumber,
        δ ≤ weekdayDelta (weekday startSample) t) ∧
      cSample.start = some (some (plusDays startSample δ)) ∧
      cSample.endt = some (some (plusDays endSample δ)) ∧
      weekday (plusDays startSample δ) ∈
        (["Wednesday"] : List String).filterMap dayToNumber ∧
      (weekday startSample ∈ (["Wednesday"] : List String).filterMap dayToNumber →
        δ = 0) ∧
      alignToFirstMatchingWeekday (plusDays startSample δ) ["Wednesday"] =
        some (plusDays startSample δ) :=
  C1_weekday_alignment bSample mSample [] cSample ["Wednesday"]
    ["09:00AM", "09:50AM"] startSample endSample rfl (by decide) (by decide)
    rfl (by decide) (by decide) (by decide)

/-- C2 witness: the boundary for the range ending 2025-04-25 is the last
millisecond of that day. -/
theorem C2_witness :
    cSample.untl = some (some (minusMillis (plusDays ⟨20203, 0⟩ 1) 1)) ∧
    minusMillis (plusDays (⟨20203, 0⟩ : DateTime) 1) 1 = ⟨20203, 86399999⟩ :=
  C2_until_boundary bSample mSample [] cSample ⟨20203, 0⟩ (by decide) (by decide)

/-- C3 witness: the sample meeting satisfies the emission conditions and
is emitted. -/
theorem C3_witness :
    (∃ c, finalizeMeeting (some bSample) (some mSample) [] = some c) ↔
      ((∃ l, mSample.day = some l ∧ l ≠ []) ∧ mSample.timeStrings.isSome ∧
        2 ≤ (effectiveDateStrings mSample []).length) :=
  C3_emission_iff bSample mSample []
    (fun l hl => by
      injection hl with h
      rw [← h]
      decide)

/-- C6 witness: a single-cell asterisk row splits into campus, location
and room. -/
theorem C6_witness :
    ((step1 {} ["A*,B,101"]).pending =
      if isLocationRow (St1.pending {}) ["A*,B,101"] (rowText ["A*,B,101"]) then
        some (locationUpdate (St1.pending {}) (rowText ["A*,B,101"]))
      else St1.pending {}) ∧
    (isLocationRow none ["A*,B,101"] "A*,B,101" = true ↔
      ((["A*,B,101"] : List String).length = 1 ∧
        jsContains "A*,B,101" ',' = true ∧
        jsFalsyOptStr (((none : Option Meeting).map Meeting.room).join) = true ∧
        (jsContains "A*,B,101" '*' = true ∨ hasCommaDigits "A*,B,101" = true))) ∧
    (split3 "A*,B,101" ',' = some ("A*", "B", "101") →
      (locationUpdate none "A*,B,101").campus = some (jsTrim "A*") ∧
      (locationUpdate none "A*,B,101").location = some (jsTrim "B") ∧
      (locationUpdate none "A*,B,101").room = some (jsTrim "101") ∧
      (locationUpdate none "A*,B,101").day = (spreadMeeting none).day ∧
      (locationUpdate none "A*,B,101").timeStrings = (spreadMeeting none).timeStrings ∧
      (locationUpdate none "A*,B,101").dateStrings = (spreadMeeting none).dateStrings) ∧
    (split3 "A*,B,101" ',' = none →
      (locationUpdate none "A*,B,101").location = some "A*,B,101" ∧
      (locationUpdate none "A*,B,101").campus = (spreadMeeting none).campus ∧
      (locationUpdate none "A*,B,101").room = (spreadMeeting none).room) ∧
    (jsSplit "A*,B,101" ',' = "A*" :: ["B", "101"] →
      2 ≤ (["B", "101"] : List String).length →
      split3 "A*,B,101" ',' =
        some ("A*", joinSep "," (["B", "101"] : List String).dropLast,
          (["B", "101"] : List String).getLastD "")) :=
  C6_location_classification {} ["A*,B,101"] none "A*" "B" "101" "A*,B,101"
    "A*,B,101" "A*" ["B", "101"] (by decide) (by decide) (by decide) (by decide)
    (by decide)

/-- C7 witness: the Wednesday sample course produces the weekly rule with
code WE and the UTC-rendered boundary. -/
theorem C7_witness :
    ∃ ev, mkEventLocal cSample = some ev ∧
      ev.recurrenceRule =
        "FREQ=WEEKLY;BYDAY=" ++ joinSep "," ["WE"] ++
          ";INTERVAL=1;UNTIL=" ++ toRRuleUntilUTC ⟨20203, 86399999⟩ :=
  C7_rrule_format cSample ["Wednesday"] ["WE"] (some ⟨20096, 32400000⟩)
    (some ⟨20096, 35400000⟩) ⟨20203, 86399999⟩ rfl (by decide) rfl rfl rfl

/-- C8 witness: the reconstruction properties at a one-fragment page. -/
theorem C8_witness :
    List.Sorted (fun a b : Int => a > b) (pageKeys [⟨"a", 0, 1⟩]) ∧
    List.Sorted (fun a b : Frag => a.x ≤ b.x)
      (sortByX (groupFor [⟨"a", 0, 1⟩] 1)) ∧
    (∀ f ∈ groupFor [(⟨"a", 0, 1⟩ : Frag)] 1, jsRound f.y = 1) ∧
    (∀ r ∈ reconstructRows [[⟨"a", 0, 1⟩]], r ≠ [] ∧ ∀ cell ∈ r, cell ≠ "") ∧
    reconstructRows [[⟨"a", 0, 1⟩]] =
      (([[⟨"a", 0, 1⟩]] : List (List Frag)).map pageRows).flatten :=
  C8_layout_reconstruction [[⟨"a", 0, 1⟩]] [⟨"a", 0, 1⟩] 1

/-- C9 witness: the two event builders agree on the sample course in all
fields other than instant rendering. -/
theorem C9_witness :
    ((mkEventUTC cSample).isSome ↔ (mkEventLocal cSample).isSome) ∧
    (∀ e0 e1, mkEventUTC cSample = some e0 → mkEventLocal cSample = some e1 →
      e0.title = e1.title ∧ e0.description = e1.description ∧
      e0.location = e1.location ∧ e0.recurrenceRule = e1.recurrenceRule ∧
      e0.transp = e1.transp ∧
      e0.startInputType = "utc" ∧ e0.startOutputType = "utc" ∧
      e0.endInputType = "utc" ∧ e0.endOutputType = "utc" ∧
      e1.startInputType = "local" ∧ e1.startOutputType = "local" ∧
      e1.endInputType = "local" ∧ e1.endOutputType = "local") :=
  C9_event_stage_equivalence cSample

/-- C10 witness: the course parsed from the sample rows has all temporal
fields and is never excluded by the until check. -/
theorem C10_witness :
    (cRowsSample.day.isSome ∧ cRowsSample.start.isSome ∧
      cRowsSample.endt.isSome ∧ cRowsSample.untl.isSome) ∧
    (selectable cRowsSample = true → (mkEventLocal cRowsSample).isSome) :=
  C10_temporal_invariant rowsSample [cRowsSample] (by decide) cRowsSample
    (by decide)

/-- C4 witness: a sequence with no header label row aborts. -/
theorem C4_witness : extractCourses [["A"], ["B"]] = none :=
  C4_structural_abort _ (Or.inl (by decide))
